import Mathlib

/-!
Verification of the archive/unpack utilities (compress_directories.py,
decompress_files.py, utils.py).

The Python code manipulates file names through pathlib's suffix machinery.
We embed a file NAME (the final path component, which in Python never
contains the separator '/') as a `List Char` and translate pathlib's
`suffix`, `suffixes`, `stem`, `with_suffix`, `str.removesuffix`, and the
repository's `remove_suffixes` / `get_base_directory` functions faithfully,
including pathlib's hidden-file rule (a leading dot does not start a
suffix) and `with_suffix`'s validity checks.
-/

set_option maxHeartbeats 1000000

/-- A file name: the final path component, as a list of characters. -/
abbrev Name := List Char

/-- Python str.split on a single '.' separator: splitOnDot "" = [""],
    and components between consecutive dots are empty strings. -/
def splitOnDot : Name → List Name
  | [] => [[]]
  | c :: cs =>
    if c = '.' then [] :: splitOnDot cs
    else
      match splitOnDot cs with
      | [] => [[c]]
      | h :: t => (c :: h) :: t

/-- Python str.lstrip on the character '.': drop every leading dot. -/
def lstripDots : Name → Name
  | [] => []
  | c :: cs => if c = '.' then lstripDots cs else c :: cs

/-- Count of leading dots removed by lstripDots. -/
def countLeadDots : Name → Nat
  | [] => 0
  | c :: cs => if c = '.' then countLeadDots cs + 1 else 0

/-- Python str.endswith on the one-character string ".". -/
def endsWithDot (n : Name) : Bool := n.getLast? = some '.'

/-- PurePath.suffixes: if the name ends with '.' the list is empty;
    otherwise strip leading dots, split on '.', drop the first component
    and put the dot back on each remaining component. -/
def pySuffixes (n : Name) : List Name :=
  if endsWithDot n then []
  else ((splitOnDot (lstripDots n)).tail).map (fun s => '.' :: s)

/-- PurePath.suffix: the part of the name from the last dot, provided that
    dot is neither the first nor the last character; empty otherwise. -/
def pySuffix (n : Name) : Name :=
  if 0 < (n.reverse.takeWhile (fun c => c ≠ '.')).length ∧
      (n.reverse.takeWhile (fun c => c ≠ '.')).length + 1 < n.length then
    '.' :: (n.reverse.takeWhile (fun c => c ≠ '.')).reverse
  else []

/-- PurePath.stem: the name with its (single, last) suffix removed. -/
def pyStem (n : Name) : Name :=
  if 0 < (n.reverse.takeWhile (fun c => c ≠ '.')).length ∧
      (n.reverse.takeWhile (fun c => c ≠ '.')).length + 1 < n.length then
    n.take (n.length - ((n.reverse.takeWhile (fun c => c ≠ '.')).length + 1))
  else n

/-- Python str.removesuffix: drop a trailing occurrence of s when s is
    nonempty and actually a trailing segment of a; otherwise unchanged. -/
def pyRemovesuffix (a s : Name) : Name :=
  if s ≠ [] ∧ s.length ≤ a.length ∧ a.drop (a.length - s.length) = s then
    a.take (a.length - s.length)
  else a

/-- PurePath.with_suffix: raises on a suffix containing the separator, on
    a nonempty suffix not starting with '.', on the bare suffix ".", and on
    an empty name; otherwise replaces (or appends, when there is no old
    suffix) the suffix. -/
def pyWithSuffix (name suffix : Name) : Except String Name :=
  if '/' ∈ suffix then .error "separator in suffix"
  else if (suffix ≠ [] ∧ suffix.head? ≠ some '.') ∨ suffix = ['.'] then .error "invalid suffix"
  else if name = [] then .error "empty name"
  else
    let old := pySuffix name
    if old = [] then .ok (name ++ suffix)
    else .ok (name.take (name.length - old.length) ++ suffix)

/-- utils.remove_suffixes: iterate over the list, each step replacing the
    path's suffix by suffix.removesuffix(element); an exception from
    with_suffix aborts the iteration. -/
def remove_suffixes (p : Name) (toRemove : List Name) : Except String Name :=
  match toRemove with
  | [] => .ok p
  | s :: rest =>
    match pyWithSuffix p (pyRemovesuffix (pySuffix p) s) with
    | .error e => .error e
    | .ok p2 => remove_suffixes p2 rest

/-- ArchiveSuffixes.SUFFIXES from utils.py. -/
def archiveSuffixes : List Name :=
  [".zip".toList, ".tar".toList, ".gz".toList, ".bz2".toList, ".xz".toList]

/-- Membership in the archive-suffix set, as a Bool. -/
def isArch (s : Name) : Bool := decide (s ∈ archiveSuffixes)

/-- utils.get_base_directory: take the name's suffixes, reverse them,
    keep those in the archive-suffix set (preserving order), and remove
    them with remove_suffixes. -/
def get_base_directory (n : Name) : Except String Name :=
  remove_suffixes n (((pySuffixes n).reverse).filter isArch)

/-- Specification-side stripper (spec section 4.4): remove exactly the
    contiguous trailing run of recognized archive suffixes, right to left. -/
def specStrip (n : Name) : Name :=
  n.take (n.length - ((((pySuffixes n).reverse).takeWhile isArch).map List.length).sum)

/-- String-level wrapper for get_base_directory. -/
def get_base_directoryS (s : String) : Except String String :=
  (get_base_directory s.toList).map fun l => String.mk l

/-- String-level wrapper for pyStem. -/
def pyStemS (s : String) : String := String.mk (pyStem s.toList)

example : get_base_directoryS "data.tar.gz" = .ok "data" := by rfl
example : get_base_directoryS "data.zip" = .ok "data" := by rfl
example : get_base_directoryS "data.txt" = .ok "data.txt" := by rfl
example : pyStemS "data.tar.gz" = "data.tar" := by decide
example : specStrip "a.tar.b.gz".toList = "a.tar.b".toList := by decide
example : get_base_directoryS "a.tar.b.gz" = .ok "a.tar.b" := by rfl

/-! Structural lemmas about the name model. -/

theorem splitOnDot_ne_nil (x : Name) : splitOnDot x ≠ [] := by
  cases x with
  | nil => simp [splitOnDot]
  | cons c cs =>
    unfold splitOnDot
    by_cases h : c = '.'
    · simp [h]
    · simp only [h, if_false]
      cases hs : splitOnDot cs <;> simp

theorem splitOnDot_join (x : Name) :
    x = (splitOnDot x).headI ++ (((splitOnDot x).tail).map (fun s => '.' :: s)).flatten := by
  induction x with
  | nil => simp [splitOnDot]
  | cons c cs ih =>
    by_cases hc : c = '.'
    · rw [splitOnDot, if_pos hc]
      revert ih
      cases hs : splitOnDot cs with
      | nil => exact absurd hs (splitOnDot_ne_nil cs)
      | cons h2 t2 =>
        intro ih
        subst hc
        simp only [List.headI, List.tail, List.map_cons, List.flatten_cons, List.nil_append]
        simp only [List.headI, List.tail] at ih
        rw [List.cons_append]
        exact congrArg (List.cons '.') ih
    · rw [splitOnDot, if_neg hc]
      revert ih
      cases hs : splitOnDot cs with
      | nil => exact absurd hs (splitOnDot_ne_nil cs)
      | cons h2 t2 =>
        intro ih
        simp only [List.headI, List.tail] at ih ⊢
        rw [List.cons_append]
        exact congrArg (List.cons c) ih

theorem splitOnDot_noDot (x : Name) : ∀ s ∈ splitOnDot x, '.' ∉ s := by
  induction x with
  | nil => intro s hs; simp [splitOnDot] at hs; simp [hs]
  | cons c cs ih =>
    intro s hs
    by_cases hc : c = '.'
    · rw [splitOnDot, if_pos hc] at hs
      rcases List.mem_cons.1 hs with rfl | hs2
      · simp
      · exact ih s hs2
    · rw [splitOnDot, if_neg hc] at hs
      revert hs
      cases hsp : splitOnDot cs with
      | nil => exact absurd hsp (splitOnDot_ne_nil cs)
      | cons h2 t2 =>
        intro hs
        rcases List.mem_cons.1 hs with rfl | hs2
        · intro hmem
          rcases List.mem_cons.1 hmem with heq | hmem2
          · exact hc heq.symm
          · exact ih h2 (by rw [hsp]; exact List.mem_cons_self _ _) hmem2
        · exact ih s (by rw [hsp]; exact List.mem_cons_of_mem _ hs2)

theorem splitOnDot_free (a : Name) (ha : '.' ∉ a) : splitOnDot a = [a] := by
  induction a with
  | nil => rfl
  | cons c cs ih =>
    have hc : c ≠ '.' := fun h => ha (by simp [h])
    have hcs : '.' ∉ cs := fun h => ha (by simp [h])
    rw [splitOnDot, if_neg hc, ih hcs]

theorem splitOnDot_free_dot (a y : Name) (ha : '.' ∉ a) :
    splitOnDot (a ++ '.' :: y) = a :: splitOnDot y := by
  induction a with
  | nil => simp [splitOnDot]
  | cons c cs ih =>
    have hc : c ≠ '.' := fun h => ha (by simp [h])
    have hcs : '.' ∉ cs := fun h => ha (by simp [h])
    rw [List.cons_append, splitOnDot, if_neg hc, ih hcs]

theorem splitOnDot_rebuild (comps : List Name) :
    ∀ c0 : Name, '.' ∉ c0 → (∀ c ∈ comps, '.' ∉ c) →
    splitOnDot (c0 ++ (comps.map (fun c => '.' :: c)).flatten) = c0 :: comps := by
  induction comps with
  | nil => intro c0 h0 _; simp [splitOnDot_free c0 h0]
  | cons c comps ih =>
    intro c0 h0 hall
    have hc : '.' ∉ c := hall c (by simp)
    have hrest : ∀ x ∈ comps, '.' ∉ x := fun x hx => hall x (by simp [hx])
    have hjoin : c0 ++ (((c :: comps).map (fun s => '.' :: s)).flatten)
        = c0 ++ '.' :: (c ++ (comps.map (fun s => '.' :: s)).flatten) := by
      simp
    rw [hjoin, splitOnDot_free_dot c0 _ h0, ih c hc hrest]

theorem lstripDots_decomp (n : Name) :
    n = List.replicate (countLeadDots n) '.' ++ lstripDots n := by
  induction n with
  | nil => rfl
  | cons c cs ih =>
    by_cases hc : c = '.'
    · subst hc
      simp only [countLeadDots, lstripDots, if_pos rfl, List.replicate_succ]
      exact congrArg (List.cons '.') ih
    · simp [countLeadDots, lstripDots, hc]

theorem lstripDots_head (n : Name) :
    lstripDots n = [] ∨ ∃ c cs, lstripDots n = c :: cs ∧ c ≠ '.' := by
  induction n with
  | nil => left; rfl
  | cons c cs ih =>
    by_cases hc : c = '.'
    · simpa [lstripDots, hc] using ih
    · right; exact ⟨c, cs, by simp [lstripDots, hc], hc⟩

theorem lstripDots_subset (n : Name) : ∀ a ∈ lstripDots n, a ∈ n := by
  induction n with
  | nil => simp [lstripDots]
  | cons c cs ih =>
    intro a ha
    by_cases hc : c = '.'
    · rw [lstripDots, if_pos hc] at ha
      exact List.mem_cons_of_mem _ (ih a ha)
    · rw [lstripDots, if_neg hc] at ha
      exact ha

theorem lstripDots_replicate (d : Nat) (y : Name) :
    lstripDots (List.replicate d '.' ++ y) = lstripDots y := by
  induction d with
  | zero => simp
  | succ k ih =>
    rw [List.replicate_succ, List.cons_append, lstripDots, if_pos rfl, ih]

theorem lstripDots_of_head_ne (c : Char) (cs : Name) (hc : c ≠ '.') :
    lstripDots (c :: cs) = c :: cs := by
  rw [lstripDots, if_neg hc]

/-! Decomposition of a name as leading dots, a first component, and a
reversed component list; lemmas about pySuffix on such names. -/

/-- Rebuild a name from leading dots, the first split component, and the
    remaining components given in reversed order. -/
def nameOf (d : Nat) (c0 : Name) (rc : List Name) : Name :=
  List.replicate d '.' ++ c0 ++ ((rc.reverse).map (fun c => '.' :: c)).flatten

theorem nameOf_snoc (d : Nat) (c0 : Name) (c : Name) (rc : List Name) :
    nameOf d c0 (c :: rc) = nameOf d c0 rc ++ '.' :: c := by
  simp [nameOf]

theorem nameOf_ne_nil (d : Nat) (c0 : Name) (rc : List Name) (h : c0 ≠ []) :
    nameOf d c0 rc ≠ [] := by
  simp [nameOf, h]

theorem nameOf_noSlash (d : Nat) (c0 : Name) (rc : List Name)
    (h0 : '/' ∉ c0) (hrc : ∀ c ∈ rc, '/' ∉ c) : '/' ∉ nameOf d c0 rc := by
  intro hmem
  simp only [nameOf, List.mem_append] at hmem
  rcases hmem with (hmem | hmem) | hmem
  · exact absurd (List.eq_of_mem_replicate hmem) (by decide)
  · exact h0 hmem
  · rcases List.mem_flatten.1 hmem with ⟨l, hl, hml⟩
    rcases List.mem_map.1 hl with ⟨c, hc, rfl⟩
    rcases List.mem_cons.1 hml with heq | hmc
    · exact absurd heq (by decide)
    · exact hrc c (List.mem_reverse.1 hc) hmc

theorem pySuffix_snoc (m u : Name) (hm : m ≠ []) (hu : u ≠ []) (hud : '.' ∉ u) :
    pySuffix (m ++ '.' :: u) = '.' :: u := by
  have hrev : (m ++ '.' :: u).reverse = u.reverse ++ '.' :: m.reverse := by
    simp
  have hall : ∀ c ∈ u.reverse, (fun c => decide (c ≠ '.')) c = true := by
    intro c hc
    simp only [decide_eq_true_eq]
    intro hceq
    subst hceq
    exact hud (List.mem_reverse.1 hc)
  have htw : (m ++ '.' :: u).reverse.takeWhile (fun c => decide (c ≠ '.')) = u.reverse := by
    rw [hrev, List.takeWhile_append_of_pos hall]
    simp
  unfold pySuffix
  rw [htw]
  have hcond : 0 < u.reverse.length ∧ u.reverse.length + 1 < (m ++ '.' :: u).length := by
    constructor
    · simpa using List.length_pos.2 hu
    · simp only [List.length_reverse, List.length_append, List.length_cons]
      have := List.length_pos.2 hm
      omega
  rw [if_pos hcond, List.reverse_reverse]

theorem pySuffix_dotEnd (m : Name) : pySuffix (m ++ ['.']) = [] := by
  have hrev : (m ++ ['.']).reverse = '.' :: m.reverse := by simp
  unfold pySuffix
  rw [hrev]
  simp [List.takeWhile_cons]

theorem pySuffix_shape (m : Name) :
    pySuffix m = [] ∨ ∃ v, pySuffix m = '.' :: v ∧ v ≠ [] ∧ '.' ∉ v := by
  unfold pySuffix
  by_cases h : 0 < (m.reverse.takeWhile (fun c => decide (c ≠ '.'))).length ∧
      (m.reverse.takeWhile (fun c => decide (c ≠ '.'))).length + 1 < m.length
  · right
    refine ⟨(m.reverse.takeWhile (fun c => decide (c ≠ '.'))).reverse, by rw [if_pos h], ?_, ?_⟩
    · intro hnil
      rw [List.reverse_eq_nil_iff] at hnil
      rw [hnil] at h
      simp at h
    · intro hmem
      have := List.mem_takeWhile_imp (List.mem_reverse.1 hmem)
      simp at this
  · left; rw [if_neg h]

theorem pySuffix_mem (m : Name) : ∀ a ∈ pySuffix m, a = '.' ∨ a ∈ m := by
  intro a ha
  unfold pySuffix at ha
  by_cases h : 0 < (m.reverse.takeWhile (fun c => decide (c ≠ '.'))).length ∧
      (m.reverse.takeWhile (fun c => decide (c ≠ '.'))).length + 1 < m.length
  · rw [if_pos h] at ha
    rcases List.mem_cons.1 ha with rfl | ha2
    · left; rfl
    · right
      have hsub := List.takeWhile_sublist (l := m.reverse) (fun c => decide (c ≠ '.'))
      exact List.mem_reverse.1 (hsub.mem (List.mem_reverse.1 ha2))
  · rw [if_neg h] at ha
    simp at ha

theorem pySuffix_restore (m : Name) (h : pySuffix m ≠ []) :
    m.take (m.length - (pySuffix m).length) ++ pySuffix m = m := by
  unfold pySuffix at h ⊢
  set p : Char → Bool := fun c => decide (c ≠ '.') with hp
  by_cases hc : 0 < (m.reverse.takeWhile p).length ∧ (m.reverse.takeWhile p).length + 1 < m.length
  · rw [if_pos hc]
    set after := m.reverse.takeWhile p with hafter
    set dw := m.reverse.dropWhile p with hdw
    have hsplit : after ++ dw = m.reverse := List.takeWhile_append_dropWhile p m.reverse
    have hlen : after.length + dw.length = m.length := by
      have := congrArg List.length hsplit
      simpa using this
    have hdwne : dw ≠ [] := by
      intro hnil
      rw [hnil] at hlen
      simp at hlen
      omega
    have hhead : p (dw.head hdwne) = false := List.head_dropWhile_not p m.reverse hdwne
    have hheadeq : dw.head hdwne = '.' := by
      by_contra hne
      rw [hp] at hhead
      simp [hne] at hhead
    obtain ⟨w, hw⟩ : ∃ w, dw = '.' :: w := by
      refine ⟨dw.tail, ?_⟩
      rw [← hheadeq]
      exact (List.head_cons_tail dw hdwne).symm
    have hmrev : m.reverse = after ++ '.' :: w := by rw [← hsplit, hw]
    have hm2 : m = w.reverse ++ '.' :: after.reverse := by
      have hrr := congrArg List.reverse hmrev
      rw [List.reverse_reverse] at hrr
      rw [hrr]
      simp
    have hwlen : w.reverse.length = m.length - (('.' :: after.reverse).length) := by
      have : m.length = after.length + (w.length + 1) := by
        rw [← hlen, hw]
        simp
      simp only [List.length_reverse, List.length_cons]
      omega
    calc m.take (m.length - ('.' :: after.reverse).length) ++ '.' :: after.reverse
        = (w.reverse ++ '.' :: after.reverse).take (m.length - ('.' :: after.reverse).length)
            ++ '.' :: after.reverse := by rw [← hm2]
      _ = w.reverse ++ '.' :: after.reverse := by rw [List.take_left' hwlen]
      _ = m := hm2.symm
  · rw [if_neg hc] at h
    exact absurd rfl h

/-! Behavior of remove_suffixes: a matching step pops the last suffix, a
non-matching step is a no-op. -/

theorem archiveSuffixes_shape (s : Name) (hs : s ∈ archiveSuffixes) :
    ∃ u, s = '.' :: u ∧ u ≠ [] ∧ '.' ∉ u ∧ '/' ∉ u := by
  simp only [archiveSuffixes, List.mem_cons, List.not_mem_nil, or_false] at hs
  rcases hs with rfl | rfl | rfl | rfl | rfl
  · exact ⟨"zip".toList, by decide, by decide, by decide, by decide⟩
  · exact ⟨"tar".toList, by decide, by decide, by decide, by decide⟩
  · exact ⟨"gz".toList, by decide, by decide, by decide, by decide⟩
  · exact ⟨"bz2".toList, by decide, by decide, by decide, by decide⟩
  · exact ⟨"xz".toList, by decide, by decide, by decide, by decide⟩

theorem step_match (m u : Name) (hm : m ≠ []) (hu : u ≠ []) (hud : '.' ∉ u) :
    pyWithSuffix (m ++ '.' :: u) (pyRemovesuffix (pySuffix (m ++ '.' :: u)) ('.' :: u))
      = .ok m := by
  rw [pySuffix_snoc m u hm hu hud]
  have hrs : pyRemovesuffix ('.' :: u) ('.' :: u) = [] := by
    unfold pyRemovesuffix
    rw [if_pos ⟨by simp, le_refl _, by simp⟩]
    simp
  rw [hrs]
  unfold pyWithSuffix
  rw [if_neg (by simp), if_neg (by simp), if_neg (by simp [hm]),
    pySuffix_snoc m u hm hu hud, if_neg (by simp)]
  have htake : (m ++ '.' :: u).take ((m ++ '.' :: u).length - ('.' :: u).length) = m := by
    exact List.take_left' (by simp)
  rw [htake]
  simp

theorem step_noop (m s : Name) (hm : m ≠ []) (hsl : '/' ∉ m)
    (hs : s ∈ archiveSuffixes) (hns : pySuffix m ∉ archiveSuffixes) :
    pyWithSuffix m (pyRemovesuffix (pySuffix m) s) = .ok m := by
  obtain ⟨u, hsu, hune, hud, hus⟩ := archiveSuffixes_shape s hs
  subst hsu
  rcases pySuffix_shape m with hps | ⟨v, hpv, hvne, hvd⟩
  · have hrs : pyRemovesuffix [] ('.' :: u) = [] := by
      have hneg : ¬(('.' :: u) ≠ [] ∧ ('.' :: u).length ≤ ([] : Name).length ∧
          ([] : Name).drop (([] : Name).length - ('.' :: u).length) = '.' :: u) := by
        rintro ⟨h1, h2, h3⟩
        simp at h2
      unfold pyRemovesuffix
      rw [if_neg hneg]
    rw [hps, hrs]
    unfold pyWithSuffix
    rw [if_neg (by simp), if_neg (by simp), if_neg hm, hps, if_pos rfl]
    simp
  · have hrs : pyRemovesuffix ('.' :: v) ('.' :: u) = '.' :: v := by
      have hneg : ¬(('.' :: u) ≠ [] ∧ ('.' :: u).length ≤ ('.' :: v).length ∧
          ('.' :: v).drop (('.' :: v).length - ('.' :: u).length) = '.' :: u) := by
        rintro ⟨h1, h2, h3⟩
        by_cases hlen : v.length = u.length
        · have hd0 : ('.' :: v).length - ('.' :: u).length = 0 := by simp [hlen]
          rw [hd0] at h3
          simp only [List.drop_zero] at h3
          exact hns (by rw [hpv, h3]; exact hs)
        · have hul : u.length < v.length := by
            simp only [List.length_cons] at h2
            omega
          have hkpos : 0 < ('.' :: v).length - ('.' :: u).length := by
            simp only [List.length_cons]
            omega
          have hdrop : ('.' :: v).drop (('.' :: v).length - ('.' :: u).length)
              = v.drop (('.' :: v).length - ('.' :: u).length - 1) := by
            cases hk : ('.' :: v).length - ('.' :: u).length with
            | zero => omega
            | succ k2 => simp
          rw [hdrop] at h3
          have hmemv : '.' ∈ v := by
            have hmem : '.' ∈ v.drop (('.' :: v).length - ('.' :: u).length - 1) := by
              rw [h3]
              exact List.mem_cons_self _ _
            exact List.drop_subset _ v hmem
          exact hvd hmemv
      unfold pyRemovesuffix
      rw [if_neg hneg]
    rw [hpv, hrs]
    unfold pyWithSuffix
    have hslash : ¬ '/' ∈ ('.' :: v) := by
      intro hmem
      rcases pySuffix_mem m '/' (by rw [hpv]; exact hmem) with h | h
      · exact absurd h (by decide)
      · exact hsl h
    rw [if_neg hslash, if_neg (by simp [hvne]), if_neg hm, hpv, if_neg (by simp)]
    have hres := pySuffix_restore m (by rw [hpv]; simp)
    rw [hpv] at hres
    rw [hres]

theorem fold_noop (m : Name) (hm : m ≠ []) (hsl : '/' ∉ m)
    (hns : pySuffix m ∉ archiveSuffixes) :
    ∀ rs : List Name, (∀ r ∈ rs, r ∈ archiveSuffixes) → remove_suffixes m rs = .ok m := by
  intro rs
  induction rs with
  | nil => intro _; rfl
  | cons r rest ih =>
    intro hall
    have hstep := step_noop m r hm hsl (hall r (by simp)) hns
    simp only [remove_suffixes, hstep]
    exact ih (fun x hx => hall x (by simp [hx]))

/-- Component-level membership test: is '.'++c a recognized archive suffix. -/
def compArch (c : Name) : Bool := isArch ('.' :: c)

theorem fold_run (rc : List Name) : ∀ (d : Nat) (c0 : Name), c0 ≠ [] → '.' ∉ c0 → '/' ∉ c0 →
    (∀ c ∈ rc, '.' ∉ c ∧ '/' ∉ c) →
    remove_suffixes (nameOf d c0 rc)
      ((rc.filter compArch).map (fun c => '.' :: c))
      = .ok (nameOf d c0 (rc.dropWhile compArch)) := by
  induction rc with
  | nil => intro d c0 _ _ _ _; rfl
  | cons c rc ih =>
    intro d c0 h0ne h0d h0s hall
    cases hA : compArch c with
    | true =>
      have hcS : ('.' :: c) ∈ archiveSuffixes := by
        simp only [compArch, isArch, decide_eq_true_eq] at hA
        exact hA
      obtain ⟨u, hsu, hune, hud, hus⟩ := archiveSuffixes_shape _ hcS
      have hcu : c = u := by injection hsu
      have hcne : c ≠ [] := by rw [hcu]; exact hune
      have hcd : '.' ∉ c := by rw [hcu]; exact hud
      rw [List.filter_cons_of_pos hA, List.map_cons, nameOf_snoc]
      have hstep := step_match (nameOf d c0 rc) c (nameOf_ne_nil d c0 rc h0ne) hcne hcd
      simp only [remove_suffixes, hstep]
      rw [List.dropWhile_cons_of_pos hA]
      exact ih d c0 h0ne h0d h0s (fun x hx => hall x (by simp [hx]))
    | false =>
      have hAn : ¬ (compArch c = true) := by simp [hA]
      rw [List.filter_cons_of_neg hAn, List.dropWhile_cons_of_neg hAn]
      apply fold_noop
      · exact nameOf_ne_nil _ _ _ h0ne
      · exact nameOf_noSlash _ _ _ h0s (fun x hx => (hall x hx).2)
      · rcases eq_or_ne c [] with rfl | hcne
        · have hdot : nameOf d c0 ([] :: rc) = nameOf d c0 rc ++ ['.'] := nameOf_snoc d c0 [] rc
          rw [hdot, pySuffix_dotEnd]
          intro hmem
          rcases archiveSuffixes_shape _ hmem with ⟨u, hu, _, _, _⟩
          exact absurd hu.symm (by simp)
        · rw [nameOf_snoc,
            pySuffix_snoc _ _ (nameOf_ne_nil _ _ _ h0ne) hcne (hall c (by simp)).1]
          intro hmem
          simp only [compArch, isArch, decide_eq_false_iff_not] at hA
          exact hA hmem
      · intro r hr
        rcases List.mem_map.1 hr with ⟨x, hx, rfl⟩
        have hxf := (List.mem_filter.1 hx).2
        simp only [compArch, isArch, decide_eq_true_eq] at hxf
        exact hxf

/-! Decomposition of a name with nonempty suffix list, and the master
characterization of get_base_directory. -/

theorem decomp (n : Name) (hn : pySuffixes n ≠ []) (hsl : '/' ∉ n) :
    ∃ d c0 rc, n = nameOf d c0 rc ∧ c0 ≠ [] ∧ '.' ∉ c0 ∧ '/' ∉ c0 ∧
      (∀ c ∈ rc, '.' ∉ c ∧ '/' ∉ c) ∧
      pySuffixes n = (rc.reverse).map (fun c => '.' :: c) := by
  have hend : endsWithDot n = false := by
    by_contra h
    have h2 : endsWithDot n = true := by simpa using h
    rw [pySuffixes, h2] at hn
    simp at hn
  cases hsp : splitOnDot (lstripDots n) with
  | nil => exact absurd hsp (splitOnDot_ne_nil _)
  | cons c0 comps =>
    have hsufs : pySuffixes n = comps.map (fun s => '.' :: s) := by
      rw [pySuffixes, hend]
      simp only [Bool.false_eq_true, if_false]
      rw [hsp]
      rfl
    have hcomps_ne : comps ≠ [] := by
      intro h
      rw [h] at hsufs
      simp at hsufs
      exact hn hsufs
    have hbjoin : lstripDots n = c0 ++ (comps.map (fun s => '.' :: s)).flatten := by
      have hj := splitOnDot_join (lstripDots n)
      rw [hsp] at hj
      simpa [List.headI] using hj
    have hc0dot : '.' ∉ c0 :=
      splitOnDot_noDot _ c0 (by rw [hsp]; exact List.mem_cons_self _ _)
    have hcompsdot : ∀ c ∈ comps, '.' ∉ c := fun c hc =>
      splitOnDot_noDot _ c (by rw [hsp]; exact List.mem_cons_of_mem _ hc)
    have hc0ne : c0 ≠ [] := by
      intro h
      rcases lstripDots_head n with hnil | ⟨ch, cs, hcons, hch⟩
      · rw [hnil] at hsp
        have : splitOnDot ([] : Name) = [[]] := rfl
        rw [this] at hsp
        injection hsp with h1 h2
        exact hcomps_ne h2.symm
      · cases comps with
        | nil => exact hcomps_ne rfl
        | cons c1 rest =>
          rw [h, hcons] at hbjoin
          simp at hbjoin
          exact hch hbjoin.1
    have hslb : ∀ a ∈ lstripDots n, a ∈ n := lstripDots_subset n
    have hc0sl : '/' ∉ c0 := fun h =>
      hsl (hslb '/' (by rw [hbjoin]; exact List.mem_append_left _ h))
    have hcompssl : ∀ c ∈ comps, '/' ∉ c := by
      intro c hc hmem
      apply hsl
      apply hslb
      rw [hbjoin]
      apply List.mem_append_right
      exact List.mem_flatten.2 ⟨'.' :: c, List.mem_map.2 ⟨c, hc, rfl⟩,
        List.mem_cons_of_mem _ hmem⟩
    refine ⟨countLeadDots n, c0, comps.reverse, ?_, hc0ne, hc0dot, hc0sl, ?_, ?_⟩
    · rw [nameOf, List.reverse_reverse, List.append_assoc, ← hbjoin, ← lstripDots_decomp n]
    · intro c hc
      have hcm := List.mem_reverse.1 hc
      exact ⟨hcompsdot c hcm, hcompssl c hcm⟩
    · rw [hsufs, List.reverse_reverse]

theorem nameOf_split (d : Nat) (c0 : Name) (t dw : List Name) :
    nameOf d c0 (t ++ dw) = nameOf d c0 dw ++ ((t.reverse).map (fun c => '.' :: c)).flatten := by
  simp [nameOf, List.append_assoc]

/-- Master theorem: get_base_directory never raises and strips exactly the
    contiguous trailing run of recognized archive suffixes. -/
theorem gbd_eq_specStrip (n : Name) (hsl : '/' ∉ n) :
    get_base_directory n = .ok (specStrip n) := by
  by_cases hs : pySuffixes n = []
  · rw [get_base_directory, specStrip, hs]
    simp [remove_suffixes]
  · obtain ⟨d, c0, rc, hn, h0ne, h0d, h0s, hall, hsufs⟩ := decomp n hs hsl
    have htr : ((pySuffixes n).reverse).filter isArch
        = (rc.filter compArch).map (fun c => '.' :: c) := by
      rw [hsufs, ← List.map_reverse, List.reverse_reverse, List.filter_map]
      rfl
    have hrun : ((pySuffixes n).reverse).takeWhile isArch
        = (rc.takeWhile compArch).map (fun c => '.' :: c) := by
      rw [hsufs, ← List.map_reverse, List.reverse_reverse, List.takeWhile_map]
      rfl
    have hfold := fold_run rc d c0 h0ne h0d h0s hall
    have hsum : ((((pySuffixes n).reverse).takeWhile isArch).map List.length).sum
        = (((rc.takeWhile compArch).reverse).map (fun c => '.' :: c)).flatten.length := by
      rw [hrun]
      simp [List.length_flatten, Function.comp, List.map_reverse, List.sum_reverse]
    have hname : n = nameOf d c0 (rc.dropWhile compArch)
        ++ (((rc.takeWhile compArch).reverse).map (fun c => '.' :: c)).flatten := by
      conv_lhs => rw [hn, ← List.takeWhile_append_dropWhile compArch rc]
      rw [nameOf_split]
    have hspec : specStrip n = nameOf d c0 (rc.dropWhile compArch) := by
      rw [specStrip, hsum]
      conv_lhs => rw [hname]
      rw [List.length_append]
      rw [Nat.add_sub_cancel]
      exact List.take_left' rfl
    rw [hspec, get_base_directory, htr, hn]
    exact hfold

/-! Idempotence of the stripper. -/

theorem mem_of_getLastQ {α : Type} (l : List α) (a : α) (h : l.getLast? = some a) : a ∈ l := by
  induction l with
  | nil => simp at h
  | cons x xs ih =>
    cases xs with
    | nil =>
      simp only [List.getLast?_singleton, Option.some.injEq] at h
      simp [h]
    | cons y ys =>
      rw [List.getLast?_cons_cons] at h
      exact List.mem_cons_of_mem _ (ih h)

theorem mem_of_mem_dropWhile {α : Type} (p : α → Bool) (l : List α) (a : α)
    (h : a ∈ l.dropWhile p) : a ∈ l := by
  induction l with
  | nil => simpa using h
  | cons x xs ih =>
    rw [List.dropWhile_cons] at h
    split at h
    · exact List.mem_cons_of_mem _ (ih h)
    · exact h

theorem dropWhile_head_false {α : Type} (p : α → Bool) (l : List α) (x : α) (xs : List α)
    (h : l.dropWhile p = x :: xs) : p x = false := by
  induction l with
  | nil => simp [List.dropWhile] at h
  | cons y ys ih =>
    rw [List.dropWhile_cons] at h
    split at h
    · exact ih h
    · rename_i hy
      injection h with h1 _
      subst h1
      simpa using hy

theorem pySuffixes_nameOf (d : Nat) (c0 : Name) (h0ne : c0 ≠ []) (h0d : '.' ∉ c0)
    (rc : List Name) (hwf : ∀ c ∈ rc, '.' ∉ c)
    (hhd : rc = [] ∨ ∃ hd tl, rc = hd :: tl ∧ hd ≠ []) :
    pySuffixes (nameOf d c0 rc) = (rc.reverse).map (fun c => '.' :: c) := by
  have hass : nameOf d c0 rc
      = List.replicate d '.' ++ (c0 ++ ((rc.reverse).map (fun c => '.' :: c)).flatten) := by
    rw [nameOf, List.append_assoc]
  have hend : endsWithDot (nameOf d c0 rc) = false := by
    rcases hhd with rfl | ⟨hd, tl, rfl, hdne⟩
    · rw [nameOf]
      simp only [List.reverse_nil, List.map_nil, List.flatten_nil, List.append_nil]
      rw [endsWithDot]
      rw [List.getLast?_append_of_ne_nil _ h0ne]
      cases hch : c0.getLast? with
      | none => simp
      | some ch =>
        have hchm := mem_of_getLastQ c0 ch hch
        have : ch ≠ '.' := fun h => h0d (h ▸ hchm)
        simp [this]
    · rw [nameOf_snoc, endsWithDot]
      rw [List.getLast?_append_of_ne_nil _ (by simp : ('.' :: hd) ≠ [])]
      have hsplit : ('.' :: hd) = ['.'] ++ hd := rfl
      rw [hsplit, List.getLast?_append_of_ne_nil _ hdne]
      cases hch : hd.getLast? with
      | none => simp
      | some ch =>
        have hchm := mem_of_getLastQ hd ch hch
        have hne : ch ≠ '.' := fun h => absurd (h ▸ hchm) (hwf hd (by simp))
        simp [hne]
  have hlst : lstripDots (nameOf d c0 rc)
      = c0 ++ ((rc.reverse).map (fun c => '.' :: c)).flatten := by
    rw [hass, lstripDots_replicate]
    obtain ⟨ch, cs, rfl⟩ : ∃ ch cs, c0 = ch :: cs := by
      cases c0 with
      | nil => exact absurd rfl h0ne
      | cons a b => exact ⟨a, b, rfl⟩
    rw [List.cons_append, lstripDots_of_head_ne _ _ (fun h => h0d (h ▸ List.mem_cons_self _ _))]
  rw [pySuffixes, hend]
  simp only [Bool.false_eq_true, if_false]
  rw [hlst, splitOnDot_rebuild (rc.reverse) c0 h0d (fun c hc => hwf c (List.mem_reverse.1 hc))]
  rfl

theorem gbd_of_no_suffixes (m : Name) (h : pySuffixes m = []) :
    get_base_directory m = .ok m := by
  rw [get_base_directory, h]
  rfl

theorem gbd_idem (n : Name) (hsl : '/' ∉ n) :
    (get_base_directory n).bind get_base_directory = get_base_directory n := by
  rw [gbd_eq_specStrip n hsl]
  show get_base_directory (specStrip n) = .ok (specStrip n)
  by_cases hs : pySuffixes n = []
  · have hss : specStrip n = n := by
      rw [specStrip, hs]
      simp
    rw [hss, gbd_eq_specStrip n hsl, hss]
  · obtain ⟨d, c0, rc, hn, h0ne, h0d, h0s, hall, hsufs⟩ := decomp n hs hsl
    have htr : ((pySuffixes n).reverse).filter isArch
        = (rc.filter compArch).map (fun c => '.' :: c) := by
      rw [hsufs, ← List.map_reverse, List.reverse_reverse, List.filter_map]
      rfl
    have h2 : get_base_directory n = .ok (nameOf d c0 (rc.dropWhile compArch)) := by
      rw [get_base_directory, htr, hn]
      exact fold_run rc d c0 h0ne h0d h0s hall
    have hEq : specStrip n = nameOf d c0 (rc.dropWhile compArch) := by
      rw [gbd_eq_specStrip n hsl] at h2
      injection h2
    rw [hEq]
    have hdwwf : ∀ c ∈ rc.dropWhile compArch, '.' ∉ c ∧ '/' ∉ c :=
      fun c hc => hall c (mem_of_mem_dropWhile compArch rc c hc)
    cases hdwc : rc.dropWhile compArch with
    | nil =>
      apply gbd_of_no_suffixes
      rw [pySuffixes_nameOf d c0 h0ne h0d [] (by simp) (Or.inl rfl)]
      rfl
    | cons hd tl =>
      rw [hdwc] at hdwwf
      rcases eq_or_ne hd [] with rfl | hdne
      · apply gbd_of_no_suffixes
        have hdot : nameOf d c0 ([] :: tl) = nameOf d c0 tl ++ ['.'] := nameOf_snoc d c0 [] tl
        rw [hdot, pySuffixes]
        have hewd : endsWithDot (nameOf d c0 tl ++ ['.']) = true := by
          rw [endsWithDot, List.getLast?_concat]
          simp
        rw [hewd]
        rfl
      · have hps := pySuffixes_nameOf d c0 h0ne h0d (hd :: tl)
          (fun c hc => (hdwwf c hc).1) (Or.inr ⟨hd, tl, rfl, hdne⟩)
        rw [get_base_directory, hps]
        have htr2 : ((((hd :: tl).reverse).map (fun c => '.' :: c)).reverse).filter isArch
            = (((hd :: tl).filter compArch).map (fun c => '.' :: c)) := by
          rw [← List.map_reverse, List.reverse_reverse, List.filter_map]
          rfl
        rw [htr2]
        apply fold_noop
        · exact nameOf_ne_nil _ _ _ h0ne
        · exact nameOf_noSlash _ _ _ h0s (fun c hc => (hdwwf c hc).2)
        · rw [nameOf_snoc,
            pySuffix_snoc _ _ (nameOf_ne_nil _ _ _ h0ne) hdne (hdwwf hd (by simp)).1]
          have hhd : compArch hd = false := dropWhile_head_false compArch rc hd tl hdwc
          intro hmem
          simp only [compArch, isArch, decide_eq_false_iff_not] at hhd
          exact hhd hmem
        · intro r hr
          rcases List.mem_map.1 hr with ⟨x, hx, rfl⟩
          have hxf := (List.mem_filter.1 hx).2
          simp only [compArch, isArch, decide_eq_true_eq] at hxf
          exact hxf

/-! ByteSize display-unit selection (utils.ByteSize.__init__). The Python
code computes self.B as the plain integer and self.KB/MB/GB/PB as float
divisions by 1024^k, then picks the first suffix among B, KB, MB, GB whose
value val satisfies 1 < val < 1024, defaulting to PB. We model the float
divisions with exact rationals; for division of an integer by a power of
two, the float comparison against the power-of-two bounds 1 and 1024 agrees
with the exact rational comparison for every int input in these ranges. -/

inductive SizeUnit where
  | B
  | KB
  | MB
  | GB
  | PB
deriving DecidableEq

/-- Unit chosen by ByteSize.readable for a byte count b: the first suffix
    whose scaled value is strictly between 1 and 1024, else PB. -/
def readableUnit (b : Nat) : SizeUnit :=
  if 1 < b ∧ b < 1024 then .B
  else if 1 < (b : ℚ) / 1024 ^ 1 ∧ (b : ℚ) / 1024 ^ 1 < 1024 then .KB
  else if 1 < (b : ℚ) / 1024 ^ 2 ∧ (b : ℚ) / 1024 ^ 2 < 1024 then .MB
  else if 1 < (b : ℚ) / 1024 ^ 3 ∧ (b : ℚ) / 1024 ^ 3 < 1024 then .GB
  else .PB

/-- Integer-arithmetic characterization of the selected unit: the unique
    unit whose 1024-power interval strictly contains b, else PB. -/
def specUnit (b : Nat) : SizeUnit :=
  if 1 < b ∧ b < 1024 then .B
  else if 1024 ^ 1 < b ∧ b < 1024 ^ 2 then .KB
  else if 1024 ^ 2 < b ∧ b < 1024 ^ 3 then .MB
  else if 1024 ^ 3 < b ∧ b < 1024 ^ 4 then .GB
  else .PB

theorem readableUnit_eq_specUnit (b : Nat) : readableUnit b = specUnit b := by
  have key : ∀ k : Nat, (1 < (b : ℚ) / 1024 ^ k ∧ (b : ℚ) / 1024 ^ k < 1024)
      ↔ (1024 ^ k < b ∧ b < 1024 ^ (k + 1)) := by
    intro k
    have hpos : (0 : ℚ) < 1024 ^ k := by positivity
    constructor
    · rintro ⟨h1, h2⟩
      constructor
      · have h3 : (1024 : ℚ) ^ k < (b : ℚ) := (one_lt_div hpos).1 h1
        exact_mod_cast h3
      · have h3 : (b : ℚ) < 1024 * 1024 ^ k := (div_lt_iff₀ hpos).1 h2
        have h4 : (b : ℚ) < 1024 ^ (k + 1) := by
          rw [pow_succ]
          linarith
        exact_mod_cast h4
    · rintro ⟨h1, h2⟩
      have h1q : (1024 : ℚ) ^ k < (b : ℚ) := by exact_mod_cast h1
      have h2q : (b : ℚ) < 1024 ^ (k + 1) := by exact_mod_cast h2
      constructor
      · exact (one_lt_div hpos).2 h1q
      · rw [div_lt_iff₀ hpos]
        rw [pow_succ] at h2q
        linarith
  exact if_congr Iff.rfl rfl
    (if_congr (key 1) rfl (if_congr (key 2) rfl (if_congr (key 3) rfl rfl)))

/-! ByteSize arithmetic operators. ByteSize subclasses int; because the
right operand's type is a subclass overriding the reflected method, Python
evaluates n - b for an int n and a ByteSize b as b.__rsub__(n), and the
source implements __rsub__ as super().__sub__(other), i.e. self - other
with self the ByteSize on the right of the minus sign. -/

def byteSize_sub (self other : Int) : Int := self - other

/-- ByteSize.__rsub__ from the source: self - other (not other - self). -/
def byteSize_rsub (self other : Int) : Int := self - other

/-- Result of evaluating the Python expression n - b with n a plain int on
    the left and b a ByteSize on the right: dispatches to b.__rsub__(n). -/
def int_sub_byteSize (n b : Int) : Int := byteSize_rsub b n

/-! Filesystem-tree model for the size helpers (utils.get_folder_size and
utils.get_file_size). A node is a regular file with a byte size, a
directory with children, or a symlink whose resolved target is either a
regular file of a given size (pathlib is_file() and stat() follow
symlinks) or nothing stat-able as a regular file (broken link or link to a
non-file). Symlinks to directories are not modeled: recursive glob
traversal through them is Python-version dependent and no claim needs
them. -/

inductive FNode where
  | file (size : Nat)
  | dir (children : List FNode)
  | symlink (target : Option Nat)

/-- Path.is_file(): true for regular files and for symlinks resolving to a
    regular file. -/
def FNode.isFile : FNode → Bool
  | .file _ => true
  | .symlink (some _) => true
  | _ => false

/-- Path.is_dir() on a modeled node. -/
def FNode.isDir : FNode → Bool
  | .dir _ => true
  | _ => false

/-- stat().st_size for a node satisfying is_file (0 elsewhere, unused). -/
def FNode.statSize : FNode → Nat
  | .file s => s
  | .symlink (some s) => s
  | _ => 0

/-- Enumeration of folder.glob of every entry under a directory's children,
    recursing into subdirectories. -/
def globList : List FNode → List FNode
  | [] => []
  | FNode.dir cs :: rest => FNode.dir cs :: (globList cs ++ globList rest)
  | n :: rest => n :: globList rest

/-- utils.get_folder_size: raise unless the path is a directory, else sum
    stat().st_size over every globbed entry passing is_file(). -/
def get_folder_size (n : FNode) : Except String Nat :=
  match n with
  | FNode.dir cs => .ok ((((globList cs).filter FNode.isFile).map FNode.statSize).sum)
  | _ => .error "not a directory"

/-- utils.get_file_size: raise unless the path passes is_file(), else
    return stat().st_size. -/
def get_file_size (n : FNode) : Except String Nat :=
  if n.isFile then .ok n.statSize else .error "not a File"

/-- Specification-side sum (spec section 4.3 wording): byte counts of the
    regular files reachable by recursive traversal, symlinks and directory
    entries themselves excluded. -/
def sumRegularFiles : List FNode → Nat
  | [] => 0
  | FNode.file s :: rest => s + sumRegularFiles rest
  | FNode.dir cs :: rest => sumRegularFiles cs + sumRegularFiles rest
  | FNode.symlink _ :: rest => sumRegularFiles rest

/-- Recursive sum counting regular files and symlinks that resolve to
    regular files (at the target's size). -/
def specSumLinked : List FNode → Nat
  | [] => 0
  | FNode.file s :: rest => s + specSumLinked rest
  | FNode.dir cs :: rest => specSumLinked cs + specSumLinked rest
  | FNode.symlink (some s) :: rest => s + specSumLinked rest
  | FNode.symlink none :: rest => specSumLinked rest

theorem glob_sum (cs : List FNode) :
    (((globList cs).filter FNode.isFile).map FNode.statSize).sum = specSumLinked cs := by
  match cs with
  | [] => simp [globList, specSumLinked]
  | FNode.file s :: rest =>
    have ih := glob_sum rest
    simp [globList, specSumLinked, FNode.isFile, FNode.statSize, List.filter_cons, ih]
  | FNode.dir cs2 :: rest =>
    have ih1 := glob_sum cs2
    have ih2 := glob_sum rest
    simp [globList, specSumLinked, FNode.isFile, List.filter_cons, List.filter_append, ih1, ih2]
  | FNode.symlink (some s) :: rest =>
    have ih := glob_sum rest
    simp [globList, specSumLinked, FNode.isFile, FNode.statSize, List.filter_cons, ih]
  | FNode.symlink none :: rest =>
    have ih := glob_sum rest
    simp [globList, specSumLinked, FNode.isFile, List.filter_cons, ih]

/-! Orchestration model. The filesystem state carries the regular files
(path to size and modification stamp), the directories (path to a tree-size
stamp), and, for the unpacker, which files are readable archives and the
name of the single top-level directory their contents unpack to. Paths are
joined as strings with '/'; sources are given as bare names, so
Path(x).stem is pyStemS x. Logging is elided; a monotone stamp plays the
role of the clock for sizes and mtimes of newly written artifacts. -/

structure FS where
  files : List (String × Nat × Nat)
  dirs : List (String × Nat)
  archives : List (String × String)
deriving DecidableEq

def FS.isFile (fs : FS) (p : String) : Bool := (fs.files.lookup p).isSome

def FS.isDir (fs : FS) (p : String) : Bool := (fs.dirs.lookup p).isSome

def FS.fileInfo (fs : FS) (p : String) : Option (Nat × Nat) := fs.files.lookup p

def FS.dirInfo (fs : FS) (p : String) : Option Nat := fs.dirs.lookup p

def FS.writeFile (fs : FS) (p : String) (sz mt : Nat) : FS :=
  { fs with files := (p, sz, mt) :: fs.files.filter (fun e => decide (e.1 ≠ p)) }

def FS.mkDir (fs : FS) (p : String) (sz : Nat) : FS :=
  { fs with dirs := (p, sz) :: fs.dirs.filter (fun e => decide (e.1 ≠ p)) }

def FS.removeDir (fs : FS) (p : String) : FS :=
  { fs with dirs := fs.dirs.filter (fun e => decide (e.1 ≠ p)) }

/-- The ArchiveFormat enum of compress_directories.py. -/
inductive ArchiveFormat where
  | ZIP
  | TAR
  | GZTAR
  | BZTAR
  | XZTAR
deriving DecidableEq

/-- The enum member's string value. -/
def ArchiveFormat.value : ArchiveFormat → String
  | .ZIP => "zip"
  | .TAR => "tar"
  | .GZTAR => "tar.gz"
  | .BZTAR => "tar.bz2"
  | .XZTAR => "tar.xz"

/-- How the f-string interpolation of the enum member renders: str() of a
    plain Enum member is "ClassName.MEMBER", not the member's value. -/
def ArchiveFormat.pyStr : ArchiveFormat → String
  | .ZIP => "ArchiveFormat.ZIP"
  | .TAR => "ArchiveFormat.TAR"
  | .GZTAR => "ArchiveFormat.GZTAR"
  | .BZTAR => "ArchiveFormat.BZTAR"
  | .XZTAR => "ArchiveFormat.XZTAR"

/-- Suffix shutil.make_archive appends to the base name for each format
    name (zip, tar, gztar, bztar, xztar). -/
def ArchiveFormat.shutilSuffix : ArchiveFormat → String
  | .ZIP => ".zip"
  | .TAR => ".tar"
  | .GZTAR => ".tar.gz"
  | .BZTAR => ".tar.bz2"
  | .XZTAR => ".tar.xz"

/-- compress_directories.archive_directory, per-entry try/except body: a
    raising step ends the entry with the state it reached; the exception is
    caught and logged. Steps: get_folder_size(source) raises unless the
    source is a directory; shutil.make_archive writes the archive at
    archive_path + format suffix; get_file_size(archive_path) probes the
    extension-less base path and raises when no file is there, skipping
    everything after it (ratio logging and the rmtree delete step). -/
def archive_directory (fs : FS) (source_directory archive_path : String)
    (fmt : ArchiveFormat) (delete : Bool) (stamp : Nat) : FS :=
  if ¬ fs.isDir source_directory then fs
  else
    let fs1 := fs.writeFile (archive_path ++ fmt.shutilSuffix) stamp stamp
    if ¬ fs1.isFile archive_path then fs1
    else if delete then fs1.removeDir source_directory
    else fs1

/-- Loop of compress_directories.main: per source, base name is
    Path(source).stem; when not overwriting, the skip-check probes
    output/(base ++ "." ++ str(enum member)) as built by the f-string. -/
def compressLoop (fs : FS) (sources : List String) (out : String) (fmt : ArchiveFormat)
    (overwrite delete : Bool) (stamp : Nat) : FS :=
  match sources with
  | [] => fs
  | src :: rest =>
    let base := pyStemS src
    let archive_path := out ++ "/" ++ base
    let fs1 :=
      if overwrite = false then
        if fs.isFile (out ++ "/" ++ base ++ "." ++ fmt.pyStr) then fs
        else archive_directory fs src archive_path fmt delete stamp
      else archive_directory fs src archive_path fmt delete stamp
    compressLoop fs1 rest out fmt overwrite delete (stamp + 1)

def compressMain (fs : FS) (sources : List String) (out : String) (fmt : ArchiveFormat)
    (overwrite delete : Bool) : FS :=
  compressLoop fs sources out fmt overwrite delete 100

/-- A Python value in the unpacker's source list: argparse yields str
    entries, and the loop rebinds the loop variable to Path(entry).
    Path(s) == s is False in Python, so the two are never equal. -/
inductive PyVal where
  | str (s : String)
  | path (s : String)
deriving DecidableEq

def PyVal.pathStr : PyVal → String
  | .str s => s
  | .path s => s

/-- Python list.remove: drop the first element equal to x, or raise
    ValueError (modeled as none) when no element compares equal. -/
def pyListRemove (l : List PyVal) (x : PyVal) : Option (List PyVal) :=
  match l with
  | [] => none
  | y :: ys => if y = x then some ys else (pyListRemove ys x).map (fun r => y :: r)

/-- decompress_files.unpack_archive, per-entry try/except body:
    get_file_size(source) raises unless the source is a file;
    shutil.unpack_archive extracts the archive's top-level directory into
    the output directory (raising on an unreadable archive); the
    get_folder_size probe on output/(stem of get_base_directory(source))
    raises when that path is not a directory, skipping the rest of the
    entry. The delete step guards on is_file and then calls shutil.unlink,
    which does not exist: the AttributeError is caught by the entry
    handler, so no branch ever removes the source file. -/
def unpack_archive (fs : FS) (source_file : String) (out : String) (delete : Bool)
    (stamp : Nat) : FS :=
  if ¬ fs.isFile source_file then fs
  else
    match fs.archives.lookup source_file with
    | none => fs
    | some content =>
      let fs1 := fs.mkDir (out ++ "/" ++ content) stamp
      match get_base_directoryS source_file with
      | .error _ => fs1
      | .ok ubase =>
        if ¬ fs1.isDir (out ++ "/" ++ pyStemS ubase) then fs1
        else if delete then fs1
        else fs1

/-- Loop of decompress_files.main with Python's list-iterator semantics:
    the iterator index advances every iteration while the skip branch
    mutates the list with remove; a remove that finds no equal element
    raises ValueError out of main (third component true). Fuel bounds the
    recursion; one unit per iteration, so list length + 1 always
    suffices. The second component records the entries examined. -/
def unpackLoop (fuel : Nat) (fs : FS) (l : List PyVal) (k : Nat) (out : String)
    (overwrite delete : Bool) (stamp : Nat) (examined : List String) :
    FS × List String × Bool :=
  match fuel with
  | 0 => (fs, examined, false)
  | fuel + 1 =>
    if hk : k < l.length then
      let s := (l.get ⟨k, hk⟩).pathStr
      if overwrite = false then
        if fs.isDir (out ++ "/" ++ pyStemS s) then
          match pyListRemove l (PyVal.path s) with
          | none => (fs, examined ++ [s], true)
          | some l2 =>
            unpackLoop fuel fs l2 (k + 1) out overwrite delete (stamp + 1) (examined ++ [s])
        else
          unpackLoop fuel (unpack_archive fs s out delete stamp) l (k + 1) out overwrite
            delete (stamp + 1) (examined ++ [s])
      else
        unpackLoop fuel (unpack_archive fs s out delete stamp) l (k + 1) out overwrite
          delete (stamp + 1) (examined ++ [s])
    else (fs, examined, false)

def unpackMain (fs : FS) (source_files : List String) (out : String)
    (overwrite delete : Bool) : FS × List String × Bool :=
  unpackLoop (source_files.length + 1) fs (source_files.map PyVal.str) 0 out
    overwrite delete 100 []

/-! Claim theorems. -/

/-- C1: the archiver's skip-check builds its probe path by f-string
interpolation of the ArchiveFormat enum member, yielding
out/data.ArchiveFormat.ZIP rather than the destination out/data.zip; with
overwrite=false and the destination already present, the probe misses, the
entry is re-archived, and the destination's bytes and mtime change
(50, 7 becomes 100, 100), contradicting the claimed skip semantics. -/
theorem c1_skip_check_misses_destination :
    ("out/" ++ pyStemS "data" ++ "." ++ ArchiveFormat.ZIP.pyStr
      = "out/data.ArchiveFormat.ZIP") ∧
    (FS.isFile ⟨[("out/data.zip", 50, 7)], [("data", 100)], []⟩
      ("out/" ++ pyStemS "data" ++ "." ++ ArchiveFormat.ZIP.pyStr) = false) ∧
    ((compressMain ⟨[("out/data.zip", 50, 7)], [("data", 100)], []⟩ ["data"] "out"
      ArchiveFormat.ZIP false false).fileInfo "out/data.zip" = some (100, 100)) ∧
    (((100, 100) : Nat × Nat) ≠ (50, 7)) := by
  decide

/-- C2: on the first skipped entry the unpack loop calls
source_files.remove(Path(entry)); the Path never compares equal to the str
entries argparse produced, so ValueError escapes main: with sources
a.zip and b.zip and an existing extraction directory out/a, the run
aborts after examining only a.zip, and b.zip is never examined. -/
theorem c2_skip_raises_and_abandons_rest :
    (unpackMain ⟨[], [("out/a", 5)], []⟩ ["a.zip", "b.zip"] "out" false false
      = (⟨[], [("out/a", 5)], []⟩, ["a.zip"], true)) ∧
    ("b.zip" ∉ (unpackMain ⟨[], [("out/a", 5)], []⟩ ["a.zip", "b.zip"] "out"
      false false).2.1) := by
  decide

/-- C3: with deleteSource=true and a fully successful archive creation, the
source directory still exists afterwards, because the post-creation size
probe on the extension-less base path raises before rmtree; likewise the
unpacker's delete step calls the nonexistent shutil.unlink (AttributeError,
caught), so a successfully extracted source archive also survives. -/
theorem c3_delete_source_never_happens :
    ((compressMain ⟨[], [("data", 100)], []⟩ ["data"] "out" ArchiveFormat.ZIP
      false true).isFile "out/data.zip" = true) ∧
    ((compressMain ⟨[], [("data", 100)], []⟩ ["data"] "out" ArchiveFormat.ZIP
      false true).isDir "data" = true) ∧
    ((unpackMain ⟨[("a.zip", 50, 1)], [], [("a.zip", "a")]⟩ ["a.zip"] "out"
      false true).1.isDir "out/a" = true) ∧
    ((unpackMain ⟨[("a.zip", 50, 1)], [], [("a.zip", "a")]⟩ ["a.zip"] "out"
      false true).1.isFile "a.zip" = true) := by
  decide

/-- C4: the unpacker's skip-check derives its probe from Path(F).stem,
which strips a single suffix: for F = data.tar.gz it probes out/data.tar,
not out/<fully stripped name> = out/data; consequently, even with
out/data present and overwrite=false, the entry is re-extracted (the
existing extraction directory's stamp changes from 10 to 100). -/
theorem c4_skip_check_uses_stem :
    (pyStemS "data.tar.gz" = "data.tar") ∧
    (get_base_directoryS "data.tar.gz" = Except.ok "data") ∧
    ("out/" ++ pyStemS "data.tar.gz" ≠ "out/" ++ "data") ∧
    ((unpackMain ⟨[("data.tar.gz", 50, 1)], [("out/data", 10)],
      [("data.tar.gz", "data")]⟩ ["data.tar.gz"] "out" false false).1.dirInfo
      "out/data" = some 100) := by
  refine ⟨by decide, by rfl, by decide, by decide⟩

/-- C5: suffix stripping maps data.tar.gz to data (not data.tar), data.zip
to data, leaves data.txt unchanged, and in general (for any separator-free
name) get_base_directory removes exactly the contiguous trailing run of
recognized archive suffixes, right to left. -/
theorem c5_suffix_stripping :
    (get_base_directoryS "data.tar.gz" = Except.ok "data") ∧
    (get_base_directoryS "data.zip" = Except.ok "data") ∧
    (get_base_directoryS "data.txt" = Except.ok "data.txt") ∧
    (∀ n : Name, '/' ∉ n → get_base_directory n = Except.ok (specStrip n)) :=
  ⟨by rfl, by rfl, by rfl, fun n h => gbd_eq_specStrip n h⟩

theorem c5_suffix_stripping_witness :
    ('/' ∉ ("x.tar.bz2".toList : Name)) ∧
    (get_base_directory "x.tar.bz2".toList = Except.ok (specStrip "x.tar.bz2".toList)) :=
  ⟨by decide, c5_suffix_stripping.2.2.2 "x.tar.bz2".toList (by decide)⟩

/-- C6 counterexample: the unit filter is strict (1 < value < 1024), so
1024 bytes scales to exactly 1.0 KB which fails the test for every unit and
falls through to PB, not KB; likewise 1 byte falls through to PB, not B. -/
theorem c6_boundary_counterexample :
    (readableUnit 1024 = SizeUnit.PB) ∧ (readableUnit 1024 ≠ SizeUnit.KB) ∧
    (readableUnit 1 = SizeUnit.PB) ∧ (readableUnit 1 ≠ SizeUnit.B) := by
  refine ⟨?_, ?_, ?_, ?_⟩ <;> rw [readableUnit_eq_specUnit] <;> decide

/-- C6 amended: the display wrapper selects the first unit among B, KB, MB,
GB (base 1024) whose scaled magnitude is strictly greater than 1 and
strictly less than 1024, i.e. the unit whose 1024-power interval strictly
contains the byte count, and falls back to PB in every other case: byte
counts 0 and 1, the exact powers 1024^k for k = 0..3, and everything of at
least 1024^4 bytes. -/
theorem c6_unit_selection : ∀ b : Nat, readableUnit b = specUnit b :=
  readableUnit_eq_specUnit

/-- C7 counterexample: archiving the nonexistent source directory ghost
makes the folder-size helper raise before shutil.make_archive runs; the
per-entry handler catches it, the entry ends with the filesystem unchanged,
and out/ghost.zip is never created, so the entry's remaining steps do not
execute. -/
theorem c7_size_failure_skips_entry_steps :
    (FS.isDir ⟨[], [], []⟩ "ghost" = false) ∧
    (compressMain ⟨[], [], []⟩ ["ghost"] "out" ArchiveFormat.ZIP true false
      = ⟨[], [], []⟩) ∧
    ((compressMain ⟨[], [], []⟩ ["ghost"] "out" ArchiveFormat.ZIP true false).isFile
      "out/ghost.zip" = false) := by
  decide

/-- C7 amended: a size-helper path-type failure is confined to its entry by
the per-entry try/except: the loop continues with the next entry and
nothing escapes; but the failing entry's remaining steps are skipped, not
executed: a missing source directory leaves the state untouched (no archive
created), and a failing post-creation size probe ends the entry right after
the archive write, so the delete step never runs even with delete=true. -/
theorem c7_error_containment :
    (∀ (fs : FS) (src : String) (rest : List String) (out : String)
        (fmt : ArchiveFormat) (delete : Bool) (stamp : Nat), fs.isDir src = false →
      compressLoop fs (src :: rest) out fmt true delete stamp
        = compressLoop fs rest out fmt true delete (stamp + 1)) ∧
    (∀ (fs : FS) (src apath : String) (fmt : ArchiveFormat) (stamp : Nat),
      fs.isDir src = true →
      (fs.writeFile (apath ++ fmt.shutilSuffix) stamp stamp).isFile apath = false →
      archive_directory fs src apath fmt true stamp
        = fs.writeFile (apath ++ fmt.shutilSuffix) stamp stamp) := by
  constructor
  · intro fs src rest out fmt delete stamp h
    simp [compressLoop, archive_directory, h]
  · intro fs src apath fmt stamp h1 h2
    simp [archive_directory, h1, h2]

theorem c7_error_containment_witness :
    ((FS.isDir ⟨[], [], []⟩ "ghost" = false) ∧
      compressLoop ⟨[], [], []⟩ ["ghost", "other"] "out" ArchiveFormat.ZIP true false 100
        = compressLoop ⟨[], [], []⟩ ["other"] "out" ArchiveFormat.ZIP true false 101) ∧
    ((FS.isDir ⟨[], [("data", 9)], []⟩ "data" = true) ∧
      ((FS.writeFile ⟨[], [("data", 9)], []⟩ ("out/data" ++ ArchiveFormat.ZIP.shutilSuffix)
        100 100).isFile "out/data" = false) ∧
      archive_directory ⟨[], [("data", 9)], []⟩ "data" "out/data" ArchiveFormat.ZIP true 100
        = FS.writeFile ⟨[], [("data", 9)], []⟩ ("out/data" ++ ArchiveFormat.ZIP.shutilSuffix)
          100 100) :=
  ⟨⟨by decide, c7_error_containment.1 ⟨[], [], []⟩ "ghost" ["other"] "out"
      ArchiveFormat.ZIP false 100 (by decide)⟩,
   ⟨by decide, by decide, c7_error_containment.2 ⟨[], [("data", 9)], []⟩ "data" "out/data"
      ArchiveFormat.ZIP 100 (by decide) (by decide)⟩⟩

/-- C8 counterexample: a directory holding one symlink whose target is a
regular file of size 5: is_file() follows symlinks, so the code returns 5,
while the specified sum with symlinks excluded is 0. -/
theorem c8_symlink_counterexample :
    (get_folder_size (FNode.dir [FNode.symlink (some 5)]) = Except.ok 5) ∧
    (sumRegularFiles [FNode.symlink (some 5)] = 0) ∧ ((5 : Nat) ≠ 0) := by
  refine ⟨?_, by simp [sumRegularFiles], by decide⟩
  simp [get_folder_size, globList, List.filter_cons, FNode.isFile, FNode.statSize]

/-- C8 amended: folderSize fails exactly when the path is not a directory;
otherwise it returns the sum of stat sizes over every entry under the
directory for which is_file() holds, which counts regular files and also
symlinks resolving to regular files (at the target's size) while excluding
directories and other symlinks; additivity holds with respect to fileSize
over exactly those is_file entries. -/
theorem c8_folder_size :
    (∀ cs : List FNode, get_folder_size (FNode.dir cs) = Except.ok (specSumLinked cs)) ∧
    (∀ n : FNode, n.isDir = false → get_folder_size n = Except.error "not a directory") ∧
    (∀ cs : List FNode, ∀ f ∈ globList cs, f.isFile = true →
      get_file_size f = Except.ok f.statSize) := by
  refine ⟨?_, ?_, ?_⟩
  · intro cs
    simp only [get_folder_size]
    exact congrArg Except.ok (glob_sum cs)
  · intro n h
    cases n with
    | file s => rfl
    | dir cs => simp [FNode.isDir] at h
    | symlink t => rfl
  · intro cs f hf hfi
    rw [get_file_size, if_pos hfi]

theorem c8_folder_size_witness :
    (get_folder_size (FNode.dir [FNode.file 3, FNode.symlink (some 4)])
      = Except.ok (specSumLinked [FNode.file 3, FNode.symlink (some 4)])) ∧
    ((FNode.isDir (FNode.file 3) = false) ∧
      get_folder_size (FNode.file 3) = Except.error "not a directory") ∧
    ((FNode.isFile (FNode.file 3) = true) ∧
      get_file_size (FNode.file 3) = Except.ok (FNode.statSize (FNode.file 3))) :=
  ⟨c8_folder_size.1 [FNode.file 3, FNode.symlink (some 4)],
   ⟨by rfl, c8_folder_size.2.1 (FNode.file 3) (by rfl)⟩,
   ⟨by rfl, c8_folder_size.2.2 [FNode.file 3] (FNode.file 3)
      (by simp [globList]) (by rfl)⟩⟩

/-- C9: suffix stripping is idempotent: for every separator-free name, a
second application of get_base_directory to the stripped result changes
nothing. -/
theorem c9_strip_idempotent :
    ∀ n : Name, '/' ∉ n →
      (get_base_directory n).bind get_base_directory = get_base_directory n :=
  fun n h => gbd_idem n h

theorem c9_strip_idempotent_witness :
    ('/' ∉ ("a.tar.gz".toList : Name)) ∧
    ((get_base_directory "a.tar.gz".toList).bind get_base_directory
      = get_base_directory "a.tar.gz".toList) :=
  ⟨by decide, c9_strip_idempotent "a.tar.gz".toList (by decide)⟩

/-- C10: because ByteSize subclasses int and overrides the reflected
subtraction, the Python expression n - b with a plain int n on the left and
a ByteSize b on the right dispatches to b.__rsub__(n), which the source
implements as self - other: the result is ByteSize(b - n), not the usual
integer difference n - b (whenever b is different from n). -/
theorem c10_rsub_swaps_operands :
    (∀ n b : Int, int_sub_byteSize n b = b - n) ∧
    (∀ n b : Int, b ≠ n → int_sub_byteSize n b ≠ n - b) := by
  constructor
  · intro n b
    rfl
  · intro n b h
    simp only [int_sub_byteSize, byteSize_rsub]
    omega

theorem c10_rsub_swaps_operands_witness :
    ((5 : Int) ≠ 3) ∧ (int_sub_byteSize 3 5 ≠ (3 : Int) - 5) :=
  ⟨by decide, c10_rsub_swaps_operands.2 3 5 (by decide)⟩
